import Mathlib

/-!
Verification of the jet-matching and observable-accumulation pipeline of
`pyjetty/alice_analysis/process/user/ml/process_ppAA.py` (class `ProcessppAA`),
shallowly embedded in Lean.  Jets of one event are identified by their indices
in the selected combined / hard jet sequences; the angular distance `ΔR`
between jets and the jet kinematics delivered by the external clustering
library are abstracted as inputs.
-/

namespace ProcessppAA

/-- Per-event matching state: for each combined jet its ordered list of
candidate hard jets, for each hard jet its ordered list of candidate combined
jets, and for each combined jet its resolved match (the `match` attribute of
its user info), if any. -/
structure MatchState (nc nh : Nat) where
  candC : Fin nc → List (Fin nh)
  candH : Fin nh → List (Fin nc)
  matchC : Fin nc → Option (Fin nh)

/-- Fresh state: jet finding is re-done per configuration, so matching info
starts empty (no candidates, no matches). -/
def initState (nc nh : Nat) : MatchState nc nh :=
  ⟨fun _ => [], fun _ => [], fun _ => none⟩

/-- Modelled from the spec: `process_base.ProcessBase.set_jet_info` is not in
`src/`; per the spec it records "a mutual candidate link on both C and H (each
jet maintains the ordered list of all links found, insertion order = iteration
order over the opposite jet sequence)".  The two `set_jet_info` calls of
`analyze_jets` (lines 346-347) append the far jet to each near jet's list. -/
def addCandidate {nc nh : Nat} (s : MatchState nc nh) (i : Fin nc) (j : Fin nh) :
    MatchState nc nh :=
  { s with
    candC := Function.update s.candC i (s.candC i ++ [j])
    candH := Function.update s.candH j (s.candH j ++ [i]) }

/-- Inner loop of candidate collection (`for jet_hard in jets_hard_selected`):
for a fixed combined jet `i`, walk the hard jets and record a mutual link
whenever `ΔR < jet_matching_distance * jetR` (line 345, strict). -/
def collectInner {nc nh : Nat} (dR : Fin nc → Fin nh → ℚ) (t : ℚ) (i : Fin nc)
    (s : MatchState nc nh) (hs : List (Fin nh)) : MatchState nc nh :=
  hs.foldl (fun s j => if dR i j < t then addCandidate s i j else s) s

/-- Outer loop of candidate collection (`for jet_combined in
jets_combined_selected`), lines 340-347 of `analyze_jets`. -/
def collect {nc nh : Nat} (dR : Fin nc → Fin nh → ℚ) (t : ℚ)
    (s : MatchState nc nh) : MatchState nc nh :=
  (List.finRange nc).foldl (fun s i => collectInner dR t i s (List.finRange nh)) s

/-- Modelled from the spec: `process_base.ProcessBase.set_matches_pp` is not in
`src/`; per the spec, "for each combined jet C, if it has exactly one candidate
link, mark the far jet H as C's tentative match" (resolution is from the
combined-jet side only, and nothing is said to be cleared otherwise). -/
def set_matches_pp {nc nh : Nat} (s : MatchState nc nh) (i : Fin nc) :
    MatchState nc nh :=
  match s.candC i with
  | [j] => { s with matchC := Function.update s.matchC i (some j) }
  | _ => s

/-- Resolution loop of `analyze_jets` (lines 350-351): `set_matches_pp` is
called for each combined jet. -/
def resolveFold {nc nh : Nat} (s : MatchState nc nh) (is_ : List (Fin nc)) :
    MatchState nc nh :=
  is_.foldl set_matches_pp s

def resolve {nc nh : Nat} (s : MatchState nc nh) : MatchState nc nh :=
  resolveFold s (List.finRange nc)

/-- One full matching pass: candidate collection followed by resolution
(lines 339-351 of `analyze_jets`). -/
def runMatching {nc nh : Nat} (dR : Fin nc → Fin nh → ℚ) (t : ℚ)
    (s : MatchState nc nh) : MatchState nc nh :=
  resolve (collect dR t s)

/-! ### Characterisation of candidate collection -/

theorem collectInner_candC {nc nh : Nat} (dR : Fin nc → Fin nh → ℚ) (t : ℚ)
    (i : Fin nc) (hs : List (Fin nh)) (s : MatchState nc nh) (i' : Fin nc) :
    (collectInner dR t i s hs).candC i' =
      if i' = i then s.candC i ++ hs.filter (fun j => decide (dR i j < t))
      else s.candC i' := by
  induction hs generalizing s with
  | nil =>
      simp only [collectInner, List.foldl_nil, List.filter_nil, List.append_nil]
      by_cases hii : i' = i
      · subst hii; rw [if_pos rfl]
      · rw [if_neg hii]
  | cons j hs ih =>
      simp only [collectInner, List.foldl_cons, List.filter_cons]
      by_cases hj : dR i j < t
      · rw [if_pos hj, if_pos (decide_eq_true hj)]
        have := ih (addCandidate s i j)
        simp only [collectInner] at this
        rw [this]
        by_cases hii : i' = i
        · subst hii
          simp [addCandidate, Function.update_apply]
        · simp [addCandidate, Function.update_apply, hii]
      · rw [if_neg hj, if_neg (by simp [hj] : ¬(decide (dR i j < t) = true))]
        have := ih s
        simp only [collectInner] at this
        rw [this]

theorem collectInner_candH {nc nh : Nat} (dR : Fin nc → Fin nh → ℚ) (t : ℚ)
    (i : Fin nc) (hs : List (Fin nh)) (hnd : hs.Nodup) (s : MatchState nc nh)
    (j : Fin nh) :
    (collectInner dR t i s hs).candH j =
      s.candH j ++ (if j ∈ hs ∧ dR i j < t then [i] else []) := by
  induction hs generalizing s with
  | nil => simp [collectInner]
  | cons j' hs ih =>
      have hnd' : hs.Nodup := hnd.of_cons
      have hj'notin : j' ∉ hs := (List.nodup_cons.mp hnd).1
      simp only [collectInner, List.foldl_cons]
      by_cases hj : dR i j' < t
      · rw [if_pos hj]
        have := ih hnd' (addCandidate s i j')
        simp only [collectInner] at this
        rw [this]
        by_cases hjj : j = j'
        · subst hjj
          simp [addCandidate, Function.update_apply, hj,
            List.mem_cons, hj'notin]
        · simp only [addCandidate, Function.update_apply, if_neg hjj]
          simp [List.mem_cons, hjj]
      · rw [if_neg hj]
        have := ih hnd' s
        simp only [collectInner] at this
        rw [this]
        by_cases hjj : j = j'
        · subst hjj
          simp [hj]
        · simp [List.mem_cons, hjj]

theorem collectInner_matchC {nc nh : Nat} (dR : Fin nc → Fin nh → ℚ) (t : ℚ)
    (i : Fin nc) (hs : List (Fin nh)) (s : MatchState nc nh) :
    (collectInner dR t i s hs).matchC = s.matchC := by
  induction hs generalizing s with
  | nil => simp [collectInner]
  | cons j hs ih =>
      simp only [collectInner, List.foldl_cons]
      by_cases hj : dR i j < t
      · rw [if_pos hj]
        have := ih (addCandidate s i j)
        simp only [collectInner] at this
        rw [this]
        rfl
      · rw [if_neg hj]
        have := ih s
        simp only [collectInner] at this
        rw [this]

/-- Outer-loop characterisation for the combined-jet candidate lists:
each outer iteration with index `i` appends the filtered hard-jet sequence to
`candC i` once per occurrence of `i` in the iterated list. -/
theorem collectFold_candC {nc nh : Nat} (dR : Fin nc → Fin nh → ℚ) (t : ℚ)
    (is_ : List (Fin nc)) (hnd : is_.Nodup) (s : MatchState nc nh) (i : Fin nc) :
    (is_.foldl (fun s i => collectInner dR t i s (List.finRange nh)) s).candC i =
      s.candC i ++
        (if i ∈ is_ then
          (List.finRange nh).filter (fun j => decide (dR i j < t)) else []) := by
  induction is_ generalizing s with
  | nil => simp
  | cons i' is_ ih =>
      have hnd' : is_.Nodup := hnd.of_cons
      have hi'notin : i' ∉ is_ := (List.nodup_cons.mp hnd).1
      simp only [List.foldl_cons]
      rw [ih hnd']
      rw [collectInner_candC]
      by_cases hii : i = i'
      · subst hii
        simp [hi'notin]
      · simp [hii, List.mem_cons]

/-- Outer-loop characterisation for the hard-jet candidate lists: hard jet `j`
collects the combined jets within the matching distance, in combined-jet
iteration order. -/
theorem collectFold_candH {nc nh : Nat} (dR : Fin nc → Fin nh → ℚ) (t : ℚ)
    (is_ : List (Fin nc)) (s : MatchState nc nh) (j : Fin nh) :
    (is_.foldl (fun s i => collectInner dR t i s (List.finRange nh)) s).candH j =
      s.candH j ++ is_.filter (fun i => decide (dR i j < t)) := by
  induction is_ generalizing s with
  | nil => simp
  | cons i' is_ ih =>
      simp only [List.foldl_cons, List.filter_cons]
      rw [ih]
      rw [collectInner_candH dR t i' (List.finRange nh) (List.nodup_finRange nh)]
      by_cases hij : dR i' j < t
      · rw [if_pos (decide_eq_true hij)]
        simp [hij]
      · rw [if_neg (by simp [hij] : ¬(decide (dR i' j < t) = true))]
        simp [hij]

theorem collectFold_matchC {nc nh : Nat} (dR : Fin nc → Fin nh → ℚ) (t : ℚ)
    (is_ : List (Fin nc)) (s : MatchState nc nh) :
    (is_.foldl (fun s i => collectInner dR t i s (List.finRange nh)) s).matchC =
      s.matchC := by
  induction is_ generalizing s with
  | nil => simp
  | cons i' is_ ih =>
      simp only [List.foldl_cons]
      rw [ih, collectInner_matchC]

theorem collect_candC {nc nh : Nat} (dR : Fin nc → Fin nh → ℚ) (t : ℚ)
    (s : MatchState nc nh) (i : Fin nc) :
    (collect dR t s).candC i =
      s.candC i ++ (List.finRange nh).filter (fun j => decide (dR i j < t)) := by
  rw [collect, collectFold_candC dR t _ (List.nodup_finRange nc)]
  simp [List.mem_finRange]

theorem collect_candH {nc nh : Nat} (dR : Fin nc → Fin nh → ℚ) (t : ℚ)
    (s : MatchState nc nh) (j : Fin nh) :
    (collect dR t s).candH j =
      s.candH j ++ (List.finRange nc).filter (fun i => decide (dR i j < t)) := by
  rw [collect, collectFold_candH]

theorem collect_matchC {nc nh : Nat} (dR : Fin nc → Fin nh → ℚ) (t : ℚ)
    (s : MatchState nc nh) : (collect dR t s).matchC = s.matchC := by
  rw [collect, collectFold_matchC]

/-! ### Characterisation of resolution -/

theorem set_matches_pp_candC {nc nh : Nat} (s : MatchState nc nh) (i i' : Fin nc) :
    (set_matches_pp s i).candC i' = s.candC i' := by
  rw [set_matches_pp]
  rcases h : s.candC i with _ | ⟨j, _ | ⟨j', l⟩⟩ <;> rfl

theorem set_matches_pp_candH {nc nh : Nat} (s : MatchState nc nh) (i : Fin nc)
    (j : Fin nh) : (set_matches_pp s i).candH j = s.candH j := by
  rw [set_matches_pp]
  rcases h : s.candC i with _ | ⟨j', _ | ⟨j'', l⟩⟩ <;> rfl

theorem set_matches_pp_matchC {nc nh : Nat} (s : MatchState nc nh) (i i' : Fin nc) :
    (set_matches_pp s i).matchC i' =
      if i' = i then
        (match s.candC i with
          | [j] => some j
          | _ => s.matchC i)
      else s.matchC i' := by
  rw [set_matches_pp]
  rcases h : s.candC i with _ | ⟨j, _ | ⟨j', l⟩⟩
  · by_cases hii : i' = i
    · subst hii; rw [if_pos rfl]
    · rw [if_neg hii]
  · by_cases hii : i' = i
    · subst hii; simp [Function.update_apply]
    · simp [Function.update_apply, hii]
  · by_cases hii : i' = i
    · subst hii; rw [if_pos rfl]
    · rw [if_neg hii]

theorem resolveFold_matchC {nc nh : Nat} (s : MatchState nc nh)
    (is_ : List (Fin nc)) (i : Fin nc) :
    (resolveFold s is_).matchC i =
      if i ∈ is_ then
        (match s.candC i with
          | [j] => some j
          | _ => s.matchC i)
      else s.matchC i := by
  induction is_ generalizing s with
  | nil => simp [resolveFold]
  | cons i' is_ ih =>
      simp only [resolveFold, List.foldl_cons]
      have := ih (set_matches_pp s i')
      simp only [resolveFold] at this
      rw [this]
      have hc : ∀ i'', (set_matches_pp s i').candC i'' = s.candC i'' :=
        set_matches_pp_candC s i'
      by_cases hmem : i ∈ is_
      · rw [if_pos hmem, if_pos (List.mem_cons_of_mem i' hmem), hc]
        rcases h : s.candC i with _ | ⟨j, _ | ⟨j', l⟩⟩
        · rw [set_matches_pp_matchC]
          by_cases hii : i = i'
          · subst hii; rw [if_pos rfl, h]
          · rw [if_neg hii]
        · rfl
        · rw [set_matches_pp_matchC]
          by_cases hii : i = i'
          · subst hii; rw [if_pos rfl, h]
          · rw [if_neg hii]
      · rw [if_neg hmem, set_matches_pp_matchC]
        by_cases hii : i = i'
        · subst hii
          rw [if_pos rfl, if_pos (List.mem_cons_self _ _)]
        · rw [if_neg hii, if_neg (by simp [List.mem_cons, hii, hmem])]

theorem resolve_candC {nc nh : Nat} (s : MatchState nc nh) (i : Fin nc) :
    (resolve s).candC i = s.candC i := by
  rw [resolve]
  induction (List.finRange nc) generalizing s with
  | nil => rfl
  | cons i' is_ ih =>
      simp only [resolveFold, List.foldl_cons]
      have := ih (set_matches_pp s i')
      simp only [resolveFold] at this
      rw [this, set_matches_pp_candC]

theorem resolve_candH {nc nh : Nat} (s : MatchState nc nh) (j : Fin nh) :
    (resolve s).candH j = s.candH j := by
  rw [resolve]
  induction (List.finRange nc) generalizing s with
  | nil => rfl
  | cons i' is_ ih =>
      simp only [resolveFold, List.foldl_cons]
      have := ih (set_matches_pp s i')
      simp only [resolveFold] at this
      rw [this, set_matches_pp_candH]

theorem resolve_matchC {nc nh : Nat} (s : MatchState nc nh) (i : Fin nc) :
    (resolve s).matchC i =
      (match s.candC i with
        | [j] => some j
        | _ => s.matchC i) := by
  rw [resolve, resolveFold_matchC, if_pos (List.mem_finRange i)]

theorem runMatching_candC {nc nh : Nat} (dR : Fin nc → Fin nh → ℚ) (t : ℚ)
    (s : MatchState nc nh) (i : Fin nc) :
    (runMatching dR t s).candC i =
      s.candC i ++ (List.finRange nh).filter (fun j => decide (dR i j < t)) := by
  rw [runMatching, resolve_candC, collect_candC]

theorem runMatching_candH {nc nh : Nat} (dR : Fin nc → Fin nh → ℚ) (t : ℚ)
    (s : MatchState nc nh) (j : Fin nh) :
    (runMatching dR t s).candH j =
      s.candH j ++ (List.finRange nc).filter (fun i => decide (dR i j < t)) := by
  rw [runMatching, resolve_candH, collect_candH]

theorem runMatching_matchC {nc nh : Nat} (dR : Fin nc → Fin nh → ℚ) (t : ℚ)
    (s : MatchState nc nh) (i : Fin nc) :
    (runMatching dR t s).matchC i =
      (match (collect dR t s).candC i with
        | [j] => some j
        | _ => s.matchC i) := by
  rw [runMatching, resolve_matchC, collect_matchC]

/-- A nodup list filtered by a predicate that holds exactly at one of its
members is the singleton of that member. -/
theorem filter_singleton_of_nodup {α : Type _} (l : List α) (hnd : l.Nodup)
    (j0 : α) (hm : j0 ∈ l) (p : α → Bool) (hp : ∀ j, p j = true ↔ j = j0) :
    l.filter p = [j0] := by
  induction l with
  | nil => cases hm
  | cons a l ih =>
      have hnd' : l.Nodup := hnd.of_cons
      have hanotin : a ∉ l := (List.nodup_cons.mp hnd).1
      rw [List.filter_cons]
      by_cases ha : a = j0
      · subst ha
        rw [if_pos ((hp a).mpr rfl)]
        have : l.filter p = [] := by
          rw [List.filter_eq_nil_iff]
          intro b hb hpb
          exact hanotin (((hp b).mp hpb) ▸ hb)
        rw [this]
      · rw [if_neg (by simp [hp, ha])]
        refine ih hnd' ?_
        rcases List.mem_cons.mp hm with h | h
        · exact absurd h.symm ha
        · exact h

/-- C4: during candidate collection (lines 339-347 of `analyze_jets`), a
candidate link between combined jet `i` and hard jet `j` is recorded — and
recorded symmetrically on both — exactly when `ΔR(i,j)` is strictly below the
matching-distance threshold `jet_matching_distance * jetR`; each jet's
candidate list is the iteration order over the opposite jet sequence filtered
by that cut. -/
theorem C4_candidate_collection {nc nh : Nat} (dR : Fin nc → Fin nh → ℚ)
    (t : ℚ) :
    (∀ i, (collect dR t (initState nc nh)).candC i =
        (List.finRange nh).filter (fun j => decide (dR i j < t)))
    ∧ (∀ j, (collect dR t (initState nc nh)).candH j =
        (List.finRange nc).filter (fun i => decide (dR i j < t)))
    ∧ (∀ i j, (j ∈ (collect dR t (initState nc nh)).candC i ↔ dR i j < t)
        ∧ (i ∈ (collect dR t (initState nc nh)).candH j ↔ dR i j < t)) := by
  refine ⟨fun i => ?_, fun j => ?_, fun i j => ⟨?_, ?_⟩⟩
  · rw [collect_candC]
    rfl
  · rw [collect_candH]
    rfl
  · rw [collect_candC]
    simp [initState, List.mem_filter, List.mem_finRange]
  · rw [collect_candH]
    simp [initState, List.mem_filter, List.mem_finRange]

/-- C3: matching is idempotent within a single event: running candidate
collection and resolution a second time on the same jet objects, without
re-clustering (i.e. without resetting the matching state), yields exactly the
same resolved match for every combined jet as the first run. -/
theorem C3_matching_idempotent {nc nh : Nat} (dR : Fin nc → Fin nh → ℚ)
    (t : ℚ) (i : Fin nc) :
    (runMatching dR t (runMatching dR t (initState nc nh))).matchC i =
      (runMatching dR t (initState nc nh)).matchC i := by
  rw [runMatching_matchC, collect_candC, runMatching_candC]
  have hinit : (initState nc nh).candC i = [] := rfl
  rw [hinit, List.nil_append]
  generalize (List.finRange nh).filter (fun j => decide (dR i j < t)) = F
  rcases F with _ | ⟨a, _ | ⟨b, l⟩⟩ <;> rfl

/-- C2: in an event where the two combined jets are each within the matching
distance of exactly the one hard jet `j0` (and of no other hard jet), `j0`
receives two candidate links, and the combined-side-only resolution assigns
`j0` as the unique match of BOTH combined jets; the many-to-one collision is
not deduplicated to a single winner. -/
theorem C2_many_to_one_not_deduplicated {nh : Nat} (dR : Fin 2 → Fin nh → ℚ)
    (t : ℚ) (j0 : Fin nh)
    (h : ∀ (i : Fin 2) (j : Fin nh), dR i j < t ↔ j = j0) :
    (runMatching dR t (initState 2 nh)).candH j0 = [0, 1]
    ∧ (runMatching dR t (initState 2 nh)).matchC 0 = some j0
    ∧ (runMatching dR t (initState 2 nh)).matchC 1 = some j0 := by
  have hcandC : ∀ i : Fin 2, (collect dR t (initState 2 nh)).candC i = [j0] := by
    intro i
    rw [collect_candC]
    have : (List.finRange nh).filter (fun j => decide (dR i j < t)) = [j0] :=
      filter_singleton_of_nodup _ (List.nodup_finRange nh) j0
        (List.mem_finRange j0) _ (by intro j; simp [h i j])
    rw [this]
    rfl
  refine ⟨?_, ?_, ?_⟩
  · rw [runMatching_candH]
    have : (List.finRange 2).filter (fun i => decide (dR i j0 < t)) =
        List.finRange 2 := by
      rw [List.filter_eq_self]
      intro i _
      exact decide_eq_true ((h i j0).mpr rfl)
    rw [this]
    rfl
  · rw [runMatching_matchC, hcandC 0]
  · rw [runMatching_matchC, hcandC 1]

/-- Concrete distance table for the many-to-one scenario: both combined jets
at distance 0 from the single hard jet. -/
def dRw : Fin 2 → Fin 1 → ℚ := fun _ _ => 0

/-- Witness for C2 at a concrete event with two combined jets and one hard
jet, threshold 1. -/
theorem C2_many_to_one_witness :
    (∀ (i : Fin 2) (j : Fin 1), dRw i j < 1 ↔ j = 0)
    ∧ ((runMatching dRw 1 (initState 2 1)).candH 0 = [0, 1]
      ∧ (runMatching dRw 1 (initState 2 1)).matchC 0 = some 0
      ∧ (runMatching dRw 1 (initState 2 1)).matchC 1 = some 0) :=
  ⟨by decide, C2_many_to_one_not_deduplicated dRw 1 0 (by decide)⟩

/-! ### Match acceptance (`fill_jet_matches`, lines 359-380) -/

/-- QA record appended under the 'combined_matched' label when a match is
accepted: delta-pt (line 372), the pair's delta-R (line 375) and the
momentum fraction `matched_pt` (line 376); accepting also runs
`fill_nsubjettiness` and `fill_four_vectors` on the combined jet. -/
structure MatchQA where
  delta_pt : ℚ
  matched_deltaR : ℚ
  matched_pt : ℚ
  deriving DecidableEq

/-- Embedding of `fill_jet_matches` (lines 359-380).  `matched` is the combined
jet's resolved match: `none` when the jet has no user info or its `match`
attribute is unset; `some (ptPP, dRpair, mpt)` carries the matched hard jet's
pT and the library-computed pair quantities.  Returns the record appended
under 'combined_matched', or `none` when the match is rejected (line 370
tests `jet_pt_bin[0] < jet_pt_pp < jet_pt_bin[1]`). -/
def fill_jet_matches (binMin binMax ptCombined : ℚ)
    (matched : Option (ℚ × ℚ × ℚ)) : Option MatchQA :=
  match matched with
  | none => none
  | some (ptPP, dRpair, mpt) =>
      if binMin < ptPP ∧ ptPP < binMax then
        some ⟨ptCombined - ptPP, dRpair, mpt⟩
      else none

/-- C1 counterexample: with pT bin `[20, 40)` and a resolved match whose hard
jet has pT exactly the bin minimum 20 — inside the half-open interval the
claim specifies — `fill_jet_matches` rejects the match: line 370 compares
strictly on both sides. -/
theorem C1_counterexample :
    fill_jet_matches 20 40 25 (some (20, 0, 1)) = none
    ∧ (20 : ℚ) ≤ 20 ∧ (20 : ℚ) < 40 := by decide

/-- C1 (amended): a resolved match is accepted — its delta-pt, delta-R and
momentum-fraction quantities recorded and the observables filled under
'combined_matched' — if and only if the matched hard jet's pT lies strictly
inside the OPEN interval (bin_min, bin_max); a hard jet with pT exactly
bin_min is rejected, as is one with pT exactly bin_max. -/
theorem C1_match_accepted_iff_open_interval
    (binMin binMax ptC ptPP dRpair mpt : ℚ) :
    ((fill_jet_matches binMin binMax ptC (some (ptPP, dRpair, mpt))).isSome
      ↔ (binMin < ptPP ∧ ptPP < binMax))
    ∧ ((binMin < ptPP ∧ ptPP < binMax) →
        fill_jet_matches binMin binMax ptC (some (ptPP, dRpair, mpt)) =
          some ⟨ptC - ptPP, dRpair, mpt⟩)
    ∧ fill_jet_matches binMin binMax ptC (some (binMin, dRpair, mpt)) = none
    ∧ fill_jet_matches binMin binMax ptC (some (binMax, dRpair, mpt)) = none
    ∧ fill_jet_matches binMin binMax ptC none = none := by
  refine ⟨?_, ?_, ?_, ?_, rfl⟩
  · by_cases h : binMin < ptPP ∧ ptPP < binMax <;> simp [fill_jet_matches, h]
  · intro h
    simp [fill_jet_matches, h]
  · simp [fill_jet_matches, lt_irrefl]
  · simp [fill_jet_matches, lt_irrefl]

/-- Witness for the amended C1 theorem at a concrete accepted input. -/
theorem C1_match_accepted_witness :
    ((20 : ℚ) < 30 ∧ (30 : ℚ) < 40)
    ∧ fill_jet_matches 20 40 25 (some (30, 1, 2)) = some ⟨25 - 30, 1, 2⟩ :=
  ⟨by norm_num,
    (C1_match_accepted_iff_open_interval 20 40 25 30 1 2).2.1 (by norm_num)⟩

/-! ### Divisions by jet pT (`fill_nsubjettiness`, lines 385-429) -/

/-- Division as performed in `fill_nsubjettiness`: a plain division by
`jet.pt()` with NO epsilon term; a vanishing denominator faults
(ZeroDivisionError on floats), modelled as `none`. -/
def div_by_jet_pt (num ptJet : ℚ) : Option ℚ :=
  if ptJet = 0 then none else some (num / ptJet)

/-- Modelled from the spec: the guarded division §4.5 prescribes — "guard with
a small epsilon additive term where the denominator can vanish"; no such
guard exists in the source. -/
def div_guarded (num ptJet eps : ℚ) : ℚ := num / (ptJet + eps)

/-- The loop of lines 389-395, restricted to its division structure: one
division per (N, β) entry, a fault anywhere propagating out. -/
def divEach (taus : List ℚ) (ptJet : ℚ) : Option (List ℚ) :=
  match taus with
  | [] => some []
  | τ :: rest =>
    match div_by_jet_pt τ ptJet, divEach rest ptJet with
    | some v, some vs => some (v :: vs)
    | _, _ => none

/-- Embedding of the divisions of `fill_nsubjettiness` (lines 385-429): each
raw N-subjettiness value is divided by the jet pT (line 394), as are the
leading-subjet pT (line 423) and the leading-hadron pT (line 428).  The raw
values and the two leading pTs are inputs from the external library. -/
def fill_nsubjettiness_divs (taus : List ℚ)
    (leadSubjetPt leadHadronPt ptJet : ℚ) : Option (List ℚ × ℚ × ℚ) := do
  let ns ← divEach taus ptJet
  let zsub ← div_by_jet_pt leadSubjetPt ptJet
  let zhad ← div_by_jet_pt leadHadronPt ptJet
  return (ns, zsub, zhad)

theorem divEach_of_ne_zero (taus : List ℚ) (ptJet : ℚ) (h : ptJet ≠ 0) :
    divEach taus ptJet = some (taus.map (fun τ => τ / ptJet)) := by
  induction taus with
  | nil => rfl
  | cons a l ih => simp [divEach, div_by_jet_pt, h, ih]

/-- C5 counterexample: at a jet with vanishing pT the observable computation
faults instead of being finite — the divisions carry no epsilon guard — while
the guarded division the spec prescribes stays defined there. -/
theorem C5_counterexample :
    fill_nsubjettiness_divs [1] 1 1 0 = none
    ∧ div_guarded 1 0 (1 / 1000) = 1000 := by
  constructor
  · rfl
  · norm_num [div_guarded]

/-- C5 (amended): no epsilon guard is present — every observable division in
`fill_nsubjettiness` divides by the jet pT directly.  The values are finite
(defined, equal to the plain quotients) whenever the jet pT is nonzero, which
jet selection ensures when the configured bin minimum is positive; at jet
pT = 0 the computation faults. -/
theorem C5_divisions_unguarded (taus : List ℚ) (lsub lhad ptJet : ℚ)
    (h : ptJet ≠ 0) :
    fill_nsubjettiness_divs taus lsub lhad ptJet =
      some (taus.map (fun τ => τ / ptJet), lsub / ptJet, lhad / ptJet) := by
  simp [fill_nsubjettiness_divs, divEach_of_ne_zero taus ptJet h,
    div_by_jet_pt, h]

/-- Witness for the amended C5 theorem at a concrete jet with pT 2. -/
theorem C5_divisions_unguarded_witness :
    (2 : ℚ) ≠ 0
    ∧ fill_nsubjettiness_divs [2] 3 4 2 =
        some ([2].map (fun τ => τ / 2), 3 / 2, 4 / 2) :=
  ⟨by norm_num, C5_divisions_unguarded [2] 3 4 2 (by norm_num)⟩

/-! ### Zero padding (`fill_four_vectors`, lines 451-466) -/

/-- Constituent kinematics stored per particle (line 457): transverse momentum
`perp`, rapidity, azimuth folded to `[0, 2π)`. -/
structure Constituent where
  perp : ℚ
  rapidity : ℚ
  phi02pi : ℚ
  deriving DecidableEq

/-- The stored four-vector of a constituent (line 457): `(perp, rapidity,
phi_02pi, 0)`. -/
def toFourVec (p : Constituent) : ℚ × ℚ × ℚ × ℚ := (p.perp, p.rapidity, p.phi02pi, 0)

def zeroVec : ℚ × ℚ × ℚ × ℚ := (0, 0, 0, 0)

/-- Fixed maximum constituent count (line 460). -/
def n_max : Nat := 800

/-- Embedding of `fill_four_vectors` (lines 451-466): build the transformed
constituent list in clustering-library order, abort the whole run
(`sys.exit`, modelled as `none`) if it exceeds `n_max`, otherwise zero-pad it
to exactly `n_max` entries. -/
def fill_four_vectors (constituents : List Constituent) :
    Option (List (ℚ × ℚ × ℚ × ℚ)) :=
  let particle_list := constituents.map toFourVec
  if particle_list.length > n_max then none
  else some (particle_list ++ List.replicate (n_max - particle_list.length) zeroVec)

/-- C6: a jet with `N ≤ n_max` constituents yields a stored list of exactly
`n_max` four-vectors whose first `N` entries are the jet's constituents (as
stored `(pT, y, φ, 0)` tuples, in clustering-library order) and whose
remaining `n_max − N` entries are all-zero; a jet with `N > n_max` aborts the
whole run rather than skipping the event. -/
theorem C6_zero_padding (cs : List Constituent) :
    (cs.length ≤ n_max →
      ∃ out, fill_four_vectors cs = some out
        ∧ out.length = n_max
        ∧ out.take cs.length = cs.map toFourVec
        ∧ out.drop cs.length = List.replicate (n_max - cs.length) zeroVec)
    ∧ (n_max < cs.length → fill_four_vectors cs = none) := by
  constructor
  · intro h
    have hlen : (cs.map toFourVec).length = cs.length := List.length_map _ _
    refine ⟨cs.map toFourVec ++ List.replicate (n_max - cs.length) zeroVec,
      ?_, ?_, ?_, ?_⟩
    · rw [fill_four_vectors]
      simp only [hlen]
      rw [if_neg (by omega)]
    · simp only [List.length_append, hlen, List.length_replicate]
      omega
    · exact List.take_left' hlen
    · exact List.drop_left' hlen
  · intro h
    rw [fill_four_vectors]
    simp only [List.length_map]
    rw [if_pos (by omega)]

/-- Witness for C6 at a concrete one-constituent jet. -/
theorem C6_zero_padding_witness :
    ([(⟨1, 2, 3⟩ : Constituent)].length ≤ n_max)
    ∧ ∃ out, fill_four_vectors [(⟨1, 2, 3⟩ : Constituent)] = some out
        ∧ out.length = n_max
        ∧ out.take [(⟨1, 2, 3⟩ : Constituent)].length =
            [(⟨1, 2, 3⟩ : Constituent)].map toFourVec
        ∧ out.drop [(⟨1, 2, 3⟩ : Constituent)].length =
            List.replicate (n_max - [(⟨1, 2, 3⟩ : Constituent)].length) zeroVec :=
  ⟨by decide, (C6_zero_padding [⟨1, 2, 3⟩]).1 (by decide)⟩

/-! ### Constituent-subtraction dispatch (`analyze_event`, lines 261-267) -/

/-- Embedding of the subtraction dispatch of `analyze_event` (lines 261-267):
one output particle set is appended per configured `max_distance` entry;
`R_max == 0` appends the combined-before-subtraction set itself, and any
other radius appends the output of that radius's subtractor run on the
combined-before-subtraction set.  The subtractor itself is external and
abstracted as a function of the radius and the input set. -/
def subtractedSets {α : Type _} (subtract : ℚ → List α → List α)
    (max_distance : List ℚ) (beforeCS : List α) : List (List α) :=
  max_distance.foldl
    (fun acc R => acc ++ [if R = 0 then beforeCS else subtract R beforeCS]) []

theorem foldl_append_singleton {α β : Type _} (f : α → β) (l : List α)
    (init : List β) :
    l.foldl (fun acc x => acc ++ [f x]) init = init ++ l.map f := by
  induction l generalizing init with
  | nil => simp
  | cons a l ih => simp [ih]

theorem subtractedSets_eq_map {α : Type _} (subtract : ℚ → List α → List α)
    (md : List ℚ) (b : List α) :
    subtractedSets subtract md b =
      md.map (fun R => if R = 0 then b else subtract R b) := by
  rw [subtractedSets, foldl_append_singleton]
  rfl

/-- C7: the entry for subtraction radius 0 is the combined-before-subtraction
particle set itself, every entry identical; and the entry for each configured
radius is a function of that radius and the ORIGINAL combined set alone — one
independent pass per radius, never chained on another radius's output. -/
theorem C7_subtraction_passes {α : Type _} (subtract : ℚ → List α → List α)
    (md : List ℚ) (before : List α) :
    (∀ i : Nat, (subtractedSets subtract md before)[i]? =
        (md[i]?).map (fun R => if R = 0 then before else subtract R before))
    ∧ (∀ i : Nat, md[i]? = some 0 →
        (subtractedSets subtract md before)[i]? = some before) := by
  have hmap : ∀ i : Nat, (subtractedSets subtract md before)[i]? =
      (md[i]?).map (fun R => if R = 0 then before else subtract R before) := by
    intro i
    rw [subtractedSets_eq_map, List.getElem?_map]
  refine ⟨hmap, fun i h => ?_⟩
  rw [hmap i, h]
  simp

/-- Concrete subtractor for the C7 witness (drops every particle). -/
def subw : ℚ → List ℚ → List ℚ := fun _ _ => []

/-- Witness for C7: with configured radii `[0, 1/2]`, the radius-0 entry is
the original set. -/
theorem C7_subtraction_passes_witness :
    (([0, 1/2] : List ℚ)[0]? = some 0)
    ∧ (subtractedSets subw [0, 1/2] [5])[0]? = some [5] :=
  ⟨by decide, (C7_subtraction_passes subw [0, 1/2] [5]).2 0 (by decide)⟩

/-! ### Jet selection (`analyze_event`, lines 276-295) -/

/-- Jet kinematics relevant to selection, as returned by the clustering
library: transverse momentum, rapidity and pseudorapidity (distinct on
massive jets). -/
structure JetKin where
  pt : ℚ
  rap : ℚ
  eta : ℚ
  deriving DecidableEq

/-- fastjet `sorted_by_pt` (lines 291, 294): the clustered jets sorted
descending by transverse momentum. -/
def sorted_by_pt (jets : List JetKin) : List JetKin :=
  jets.mergeSort (fun a b => decide (b.pt ≤ a.pt))

/-- `jet_selector_hard` (line 280): `SelectorPtMin(min_jet_pt) &
SelectorPtMax(max_jet_pt) & SelectorAbsRapMax(eta_max - jetR)`.  The pT
selectors are inclusive and the third selector cuts on |rapidity|. -/
def jet_selector_hard (minPt maxPt absRapMax : ℚ) (j : JetKin) : Bool :=
  decide (minPt ≤ j.pt) && decide (j.pt ≤ maxPt) && decide (|j.rap| ≤ absRapMax)

/-- `jet_selector_combined` (line 281): `SelectorPtMin(min_jet_pt/5.) &
SelectorAbsRapMax(eta_max - jetR)` — no upper pT cut. -/
def jet_selector_combined (minPt absRapMax : ℚ) (j : JetKin) : Bool :=
  decide (minPt / 5 ≤ j.pt) && decide (|j.rap| ≤ absRapMax)

/-- Hard-jet selection of one pass (lines 293-295): sort the clustered jets
descending by pT, then apply the hard selector. -/
def jets_hard_selected (minPt maxPt absRapMax : ℚ) (jets : List JetKin) :
    List JetKin :=
  (sorted_by_pt jets).filter (jet_selector_hard minPt maxPt absRapMax)

/-- Combined-jet selection of one pass (lines 290-292). -/
def jets_combined_selected (minPt absRapMax : ℚ) (jets : List JetKin) :
    List JetKin :=
  (sorted_by_pt jets).filter (jet_selector_combined minPt absRapMax)

/-- Descending transverse-momentum order. -/
def SortedByPtDesc (l : List JetKin) : Prop :=
  l.Pairwise (fun a b => b.pt ≤ a.pt)

/-- C8 counterexample: a hard jet with rapidity 0 but pseudorapidity 10 and
in-bin pT is selected by the code (the third selector cuts on |rapidity|),
although its absolute pseudorapidity exceeds the window `eta_max - R = 1/2`,
so the claimed pseudorapidity characterisation of the selected set fails. -/
theorem C8_counterexample :
    jets_hard_selected 20 40 (1/2) [⟨30, 0, 10⟩] = [⟨30, 0, 10⟩]
    ∧ ¬(|(10 : ℚ)| ≤ 1/2) := by
  constructor
  · rw [jets_hard_selected, sorted_by_pt, List.mergeSort_singleton]
    have hsel : jet_selector_hard 20 40 (1/2) ⟨30, 0, 10⟩ = true := by
      simp only [jet_selector_hard, Bool.and_eq_true, decide_eq_true_eq]
      norm_num
    rw [List.filter_cons, if_pos hsel, List.filter_nil]
  · rw [abs_of_nonneg (by norm_num : (0:ℚ) ≤ 10)]
    norm_num

theorem sorted_by_pt_perm (jets : List JetKin) :
    (sorted_by_pt jets).Perm jets :=
  List.mergeSort_perm jets _

theorem sorted_by_pt_sorted (jets : List JetKin) :
    SortedByPtDesc (sorted_by_pt jets) := by
  have h := @List.sorted_mergeSort JetKin (fun a b : JetKin => decide (b.pt ≤ a.pt))
    (by intro a b c hab hbc
        exact decide_eq_true (le_trans (of_decide_eq_true hbc) (of_decide_eq_true hab)))
    (by intro a b
        rcases le_total b.pt a.pt with h | h <;> simp [h])
    jets
  refine List.Pairwise.imp ?_ h
  intro a b hab
  exact of_decide_eq_true hab

/-- C8 (amended): the selected hard jets are, up to the descending-pT
reordering, exactly the clustered jets with pT in the CLOSED bin
`[min, max]` (`SelectorPtMin`/`SelectorPtMax` are inclusive) and absolute
RAPIDITY at most `eta_max − R` (`SelectorAbsRapMax` cuts on rapidity, not
pseudorapidity); the selected combined jets are exactly those with pT at
least one-fifth of the bin minimum (no upper cut) in the same rapidity
window; both sequences are sorted descending by pT. -/
theorem C8_jet_selection (jets : List JetKin) (minPt maxPt absRapMax : ℚ) :
    ((jets_hard_selected minPt maxPt absRapMax jets).Perm
        (jets.filter (fun j =>
          decide (minPt ≤ j.pt ∧ j.pt ≤ maxPt ∧ |j.rap| ≤ absRapMax))))
    ∧ SortedByPtDesc (jets_hard_selected minPt maxPt absRapMax jets)
    ∧ (∀ j, j ∈ jets_hard_selected minPt maxPt absRapMax jets ↔
          j ∈ jets ∧ minPt ≤ j.pt ∧ j.pt ≤ maxPt ∧ |j.rap| ≤ absRapMax)
    ∧ ((jets_combined_selected minPt absRapMax jets).Perm
        (jets.filter (fun j => decide (minPt / 5 ≤ j.pt ∧ |j.rap| ≤ absRapMax))))
    ∧ SortedByPtDesc (jets_combined_selected minPt absRapMax jets)
    ∧ (∀ j, j ∈ jets_combined_selected minPt absRapMax jets ↔
          j ∈ jets ∧ minPt / 5 ≤ j.pt ∧ |j.rap| ≤ absRapMax) := by
  have hsel : ∀ j : JetKin, jet_selector_hard minPt maxPt absRapMax j =
      decide (minPt ≤ j.pt ∧ j.pt ≤ maxPt ∧ |j.rap| ≤ absRapMax) := by
    intro j
    by_cases h1 : minPt ≤ j.pt <;> by_cases h2 : j.pt ≤ maxPt <;>
      by_cases h3 : |j.rap| ≤ absRapMax <;>
      simp [jet_selector_hard, h1, h2, h3]
  have hselc : ∀ j : JetKin, jet_selector_combined minPt absRapMax j =
      decide (minPt / 5 ≤ j.pt ∧ |j.rap| ≤ absRapMax) := by
    intro j
    by_cases h1 : minPt / 5 ≤ j.pt <;> by_cases h3 : |j.rap| ≤ absRapMax <;>
      simp [jet_selector_combined, h1, h3]
  have hperm : (jets_hard_selected minPt maxPt absRapMax jets).Perm
      (jets.filter (fun j =>
        decide (minPt ≤ j.pt ∧ j.pt ≤ maxPt ∧ |j.rap| ≤ absRapMax))) := by
    rw [jets_hard_selected, List.filter_congr (fun j _ => hsel j)]
    exact (sorted_by_pt_perm jets).filter _
  have hpermc : (jets_combined_selected minPt absRapMax jets).Perm
      (jets.filter (fun j =>
        decide (minPt / 5 ≤ j.pt ∧ |j.rap| ≤ absRapMax))) := by
    rw [jets_combined_selected, List.filter_congr (fun j _ => hselc j)]
    exact (sorted_by_pt_perm jets).filter _
  refine ⟨hperm, ?_, ?_, hpermc, ?_, ?_⟩
  · exact List.Pairwise.sublist (List.filter_sublist _) (sorted_by_pt_sorted jets)
  · intro j
    rw [hperm.mem_iff, List.mem_filter]
    simp
  · exact List.Pairwise.sublist (List.filter_sublist _) (sorted_by_pt_sorted jets)
  · intro j
    rw [hpermc.mem_iff, List.mem_filter]
    simp

/-! ### Per-event type check (`analyze_event`, lines 239-259) -/

/-- The accumulator state touched before jet processing: the delta-pt
random-cone series, appended once per processed event (line 317). -/
structure EventAccum where
  delta_pt_random_cone : List ℚ
  deriving DecidableEq

/-- Embedding of the prologue of `analyze_event` (lines 242-259): the hard
input's type is always checked (lines 242-244), while the combined input's
type is checked only when the thermal model is disabled (`not
self.thermal_model and ...`, lines 245-247).  A failed check returns before
anything is appended (the event is skipped with a warning, flag `true`);
otherwise processing continues and this event's random-cone delta-pt value is
appended. -/
def analyze_event_prologue (thermal hardOk combOk : Bool) (dpt : ℚ)
    (st : EventAccum) : EventAccum × Bool :=
  if hardOk = false then (st, true)
  else if thermal = false ∧ combOk = false then (st, true)
  else ({ delta_pt_random_cone := st.delta_pt_random_cone ++ [dpt] }, false)

/-- C9 counterexample: under the thermal model (the only supported mode), an
event whose combined particle input is NOT a valid particle-collection type
while the hard input is valid is NOT skipped — the combined input's type
check is guarded by `not self.thermal_model` — contradicting the claim that
either malformed input skips the event. -/
theorem C9_counterexample :
    (analyze_event_prologue true true false 0 ⟨[]⟩).2 = false := by decide

/-- C9 (amended): an event is skipped (with a logged type-mismatch warning,
accumulator state untouched) iff the hard input is not a valid
particle-collection type, or the thermal model is disabled and the combined
input is not a valid particle-collection type; under the thermal model a
malformed combined input is not caught by this check. -/
theorem C9_event_skip (thermal hardOk combOk : Bool) (dpt : ℚ)
    (st : EventAccum) :
    ((analyze_event_prologue thermal hardOk combOk dpt st).2 = true
      ↔ (hardOk = false ∨ (thermal = false ∧ combOk = false)))
    ∧ ((analyze_event_prologue thermal hardOk combOk dpt st).2 = true →
        (analyze_event_prologue thermal hardOk combOk dpt st).1 = st) := by
  rcases thermal <;> rcases hardOk <;> rcases combOk <;>
    simp [analyze_event_prologue]

/-- Witness for the amended C9 theorem: a malformed hard input skips the
event and leaves the accumulator unchanged. -/
theorem C9_event_skip_witness :
    ((analyze_event_prologue true false true 0 ⟨[3]⟩).2 = true)
    ∧ (analyze_event_prologue true false true 0 ⟨[3]⟩).1 = ⟨[3]⟩ :=
  ⟨(C9_event_skip true false true 0 ⟨[3]⟩).1.mpr (Or.inl rfl),
    (C9_event_skip true false true 0 ⟨[3]⟩).2
      ((C9_event_skip true false true 0 ⟨[3]⟩).1.mpr (Or.inl rfl))⟩

/-! ### N-subjettiness grid and series accumulation -/

/-- `N_list` built in `__init__` (lines 88-94): `[i+1]*3` per `i <
K-2`, then `[K-1]*2`. -/
def N_list (K : Nat) : List Nat :=
  (List.range (K - 2)).foldl (fun acc i => acc ++ [i + 1, i + 1, i + 1]) []
    ++ [K - 1, K - 1]

/-- `beta_list` built in `__init__` (lines 88-94): `[0.5, 1, 2]` per `i <
K-2`, then `[1, 2]`. -/
def beta_list (K : Nat) : List ℚ :=
  (List.range (K - 2)).foldl (fun acc _ => acc ++ [1/2, 1, 2]) [] ++ [1, 2]

/-- The (N, β) keys of one accumulation key's N-subjettiness dictionary, in
the iteration order of `fill_nsubjettiness` (`for i, N in
enumerate(self.N_list)` with `beta = self.beta_list[i]`, line 389-390). -/
def nsubKeys (K : Nat) : List (Nat × ℚ) := (N_list K).zip (beta_list K)

/-- One `fill_nsubjettiness` call on one jet: append one value (computed from
the key and the jet by the external library) to the series stored under each
(N, β) key (line 395). -/
def fill_nsub (K : Nat) (tau : Nat × ℚ → ℚ) (d : Nat × ℚ → List ℚ) :
    Nat × ℚ → List ℚ :=
  (nsubKeys K).foldl (fun d p => Function.update d p (d p ++ [tau p])) d

/-- A run over any number of jets filled under one accumulation key, starting
from the empty series created in `__init__` (lines 116-118). -/
def runFills (K : Nat) (jets : List (Nat × ℚ → ℚ)) : Nat × ℚ → List ℚ :=
  jets.foldl (fun d tau => fill_nsub K tau d) (fun _ => [])

theorem foldl_append_blocks {α β : Type _} (f : α → List β) (l : List α)
    (init : List β) :
    l.foldl (fun acc x => acc ++ f x) init = init ++ l.flatMap f := by
  induction l generalizing init with
  | nil => simp
  | cons a l ih => simp [ih]

theorem N_list_eq (K : Nat) :
    N_list K =
      (List.range (K - 2)).flatMap (fun i => [i + 1, i + 1, i + 1])
        ++ [K - 1, K - 1] := by
  rw [N_list, foldl_append_blocks]
  rfl

theorem beta_list_eq (K : Nat) :
    beta_list K =
      (List.range (K - 2)).flatMap (fun _ => ([1/2, 1, 2] : List ℚ))
        ++ [1, 2] := by
  rw [beta_list, foldl_append_blocks]
  rfl

theorem zip_blocks (l : List Nat) (t1 : List Nat) (t2 : List ℚ) :
    ((l.flatMap fun i => [i + 1, i + 1, i + 1]) ++ t1).zip
        ((l.flatMap fun _ => ([1/2, 1, 2] : List ℚ)) ++ t2)
      = l.flatMap (fun i => [(i + 1, (1 : ℚ)/2), (i + 1, 1), (i + 1, 2)])
        ++ t1.zip t2 := by
  induction l with
  | nil => rfl
  | cons a l ih =>
      simp only [List.flatMap_cons, List.cons_append, List.nil_append,
        List.append_assoc, List.zip_cons_cons]
      rw [ih]

theorem nsubKeys_eq (K : Nat) :
    nsubKeys K =
      (List.range (K - 2)).flatMap
          (fun i => [(i + 1, (1 : ℚ)/2), (i + 1, 1), (i + 1, 2)])
        ++ [(K - 1, 1), (K - 1, 2)] := by
  rw [nsubKeys, N_list_eq, beta_list_eq, zip_blocks]
  rfl

theorem mem_blocks_fst_le {n : Nat} {p : Nat × ℚ}
    (hp : p ∈ (List.range n).flatMap
      (fun i => [(i + 1, (1 : ℚ)/2), (i + 1, 1), (i + 1, 2)])) :
    p.1 ≤ n := by
  rcases List.mem_flatMap.mp hp with ⟨i, hi, hpi⟩
  have hin : i < n := List.mem_range.mp hi
  simp only [List.mem_cons, List.not_mem_nil, or_false] at hpi
  have h1 : p.1 = i + 1 := by
    rcases hpi with h | h | h <;> rw [h]
  omega

theorem blocks_nodup (n : Nat) :
    ((List.range n).flatMap
      (fun i => [(i + 1, (1 : ℚ)/2), (i + 1, 1), (i + 1, 2)])).Nodup := by
  induction n with
  | zero => simp
  | succ n ih =>
      rw [List.range_succ, List.flatMap_append]
      rw [List.nodup_append]
      refine ⟨ih, ?_, ?_⟩
      · simp only [List.flatMap_cons, List.flatMap_nil, List.append_nil]
        refine List.nodup_cons.mpr ⟨?_, List.nodup_cons.mpr ⟨?_,
          List.nodup_singleton _⟩⟩
        · simp only [List.mem_cons, List.not_mem_nil, or_false, Prod.mk.injEq]
          rintro (⟨-, h⟩ | ⟨-, h⟩) <;> norm_num at h
        · simp only [List.mem_cons, List.not_mem_nil, or_false, Prod.mk.injEq]
          rintro ⟨-, h⟩
          norm_num at h
      · intro p hp hp'
        have h1 : p.1 ≤ n := mem_blocks_fst_le hp
        simp only [List.flatMap_cons, List.flatMap_nil, List.append_nil,
          List.mem_cons, List.not_mem_nil, or_false] at hp'
        have h2 : p.1 = n + 1 := by
          rcases hp' with h | h | h <;> rw [h]
        omega

theorem nsubKeys_nodup (K : Nat) : (nsubKeys K).Nodup := by
  rw [nsubKeys_eq, List.nodup_append]
  refine ⟨blocks_nodup (K - 2), ?_, ?_⟩
  · refine List.nodup_cons.mpr ⟨?_, List.nodup_singleton _⟩
    simp only [List.mem_cons, List.not_mem_nil, or_false, Prod.mk.injEq]
    rintro ⟨-, h⟩
    norm_num at h
  · intro p hp hp'
    have h1 : p.1 ≤ K - 2 := mem_blocks_fst_le hp
    have h2 : 1 ≤ p.1 := by
      rcases List.mem_flatMap.mp hp with ⟨i, _, hpi⟩
      simp only [List.mem_cons, List.not_mem_nil, or_false] at hpi
      have : p.1 = i + 1 := by
        rcases hpi with h | h | h <;> rw [h]
      omega
    simp only [List.mem_cons, List.not_mem_nil, or_false] at hp'
    have h3 : p.1 = K - 1 := by
      rcases hp' with h | h <;> rw [h]
    omega

theorem fold_update_append_length {α : Type _} [DecidableEq α] (tau : α → ℚ)
    (l : List α) (d : α → List ℚ) (q : α) :
    ((l.foldl (fun d p => Function.update d p (d p ++ [tau p])) d) q).length =
      (d q).length + l.count q := by
  induction l generalizing d with
  | nil => simp
  | cons p l ih =>
      simp only [List.foldl_cons]
      rw [ih]
      rw [List.count_cons]
      by_cases h : q = p
      · subst h
        simp [Function.update_apply]
        omega
      · have : (p == q) = false := by
          simp [beq_iff_eq]
          exact fun hpq => h hpq.symm
        simp [Function.update_apply, h, this]

theorem runFills_aux (K : Nat) (js : List (Nat × ℚ → ℚ))
    (d : Nat × ℚ → List ℚ) (m : Nat)
    (hd : ∀ p ∈ nsubKeys K, (d p).length = m) :
    ∀ p ∈ nsubKeys K,
      ((js.foldl (fun d tau => fill_nsub K tau d) d) p).length =
        m + js.length := by
  induction js generalizing d m with
  | nil =>
      intro p hp
      simpa using hd p hp
  | cons tau js ih =>
      have hd' : ∀ p ∈ nsubKeys K, ((fill_nsub K tau d) p).length = m + 1 := by
        intro p hp
        rw [fill_nsub, fold_update_append_length, hd p hp,
          List.count_eq_one_of_mem (nsubKeys_nodup K) hp]
      intro p hp
      simp only [List.foldl_cons]
      rw [ih (fill_nsub K tau d) (m + 1) hd' p hp]
      simp only [List.length_cons]
      omega

/-- C10: after filling any number of jets under one accumulation key, every
(N, β) series of that key has length equal to the number of jets filled —
the (N, β) keys are pairwise distinct and each `fill_nsubjettiness` call
appends exactly one value to every entry of the grid — so all series under
the key have equal length and the end-of-run per-jet array reformatting is
well-formed. -/
theorem C10_equal_series_lengths (K : Nat) (jets : List (Nat × ℚ → ℚ)) :
    ∀ p ∈ nsubKeys K, ((runFills K jets) p).length = jets.length := by
  intro p hp
  have := runFills_aux K jets (fun _ => []) 0 (fun _ _ => rfl) p hp
  rw [runFills]
  omega

/-- Witness for C10 with K = 4 and one filled jet. -/
theorem C10_equal_series_lengths_witness :
    ((1, (1 : ℚ)/2) ∈ nsubKeys 4)
    ∧ ((runFills 4 [fun _ => 5]) (1, (1 : ℚ)/2)).length = 1 := by
  have hm : (1, (1 : ℚ)/2) ∈ nsubKeys 4 := by
    rw [nsubKeys_eq]
    refine List.mem_append_left _ (List.mem_flatMap.mpr ⟨0, by simp, by simp⟩)
  exact ⟨hm, C10_equal_series_lengths 4 [fun _ => 5] (1, (1 : ℚ)/2) hm⟩

end ProcessppAA
